import Mathlib

/-
Verification development for the npmmirs package-registry mirroring tool.

The Rust sources are embedded shallowly: pure functions become Lean functions,
the stateful caches become explicit state-passing over concrete state types,
fallible code returns Option/Except, and machine integers are Nat (no overflow
is reachable in the modelled quantities except where an explicit bound is
stated).  Strings manipulated character-by-character by the source (dependency
spec strings, URLs) are modelled as `List Char`; package names and path
components are Lean `String`s and paths are component lists.  External
library functions (the `nodejs_semver` range type, the `bitcode` and `zstd`
codecs, SHA-512) are either modelled from the spec or passed in as explicit
function parameters.
-/

set_option linter.unusedVariables false

/-! ## Semantic versions and ranges -/

/-- A semantic-version triple (`nodejs_semver::Version`), totally ordered.
Pre-release and build metadata are not needed by any claim and are omitted. -/
structure Version where
  major : Nat
  minor : Nat
  patch : Nat
deriving DecidableEq

/-- Strict lexicographic order on version triples. -/
def Version.ltb (a b : Version) : Bool :=
  decide (a.major < b.major) ||
    (decide (a.major = b.major) &&
      (decide (a.minor < b.minor) ||
        (decide (a.minor = b.minor) && decide (a.patch < b.patch))))

/-- Non-strict lexicographic order on version triples. -/
def Version.leb (a b : Version) : Bool :=
  Version.ltb a b || decide (a = b)

/-- Modelled from the spec: `nodejs_semver::Range` is an external crate, not part
of this repository.  Per §3 of the spec a Range is a set-valued predicate over
versions supporting `satisfies(v)`, `max_satisfying(versions)` (the maximal
element of the intersection, or none) and `allows_all(other)` (superset test).
We model a range as a half-open interval `lo ≤ v (< hi)` — the shape taken by
exact pins, caret/tilde ranges and `>=` ranges. -/
structure Range where
  lo : Version
  hi : Option Version
deriving DecidableEq

/-- An alias usable where a surrounding declaration also has a constructor
named `Range`. -/
abbrev SemverRange := Range

/-- `Range::satisfies`: membership of a version in the interval. -/
def Range.satisfies (r : Range) (v : Version) : Bool :=
  Version.leb r.lo v &&
    (match r.hi with
     | none => true
     | some h => Version.ltb v h)

/-- `Range::allows_all`: `r.allows_all other` holds when `r` is a superset of
`other` (every version `other` allows is allowed by `r`); for intervals this is
containment of the bounds. -/
def Range.allows_all (r other : Range) : Bool :=
  Version.leb r.lo other.lo &&
    (match r.hi with
     | none => true
     | some h =>
       match other.hi with
       | none => false
       | some h2 => Version.leb h2 h)

/-- `Range::max_satisfying`: the maximal element of `versions` satisfying `r`,
or none. -/
def Range.max_satisfying (r : Range) (versions : List Version) : Option Version :=
  versions.foldl
    (fun acc v =>
      if r.satisfies v then
        match acc with
        | none => some v
        | some m => if Version.ltb m v then some v else some m
      else acc) none

/-! ## Association-list helper shared by the cache embeddings

The Rust caches use hash maps keyed by package name; we model them as
association lists with first-match lookup. -/

/-- First-match association lookup. -/
def alookup {α : Type} : List (String × α) → String → Option α
  | [], _ => none
  | e :: rest, p => if e.1 = p then some e.2 else alookup rest p

/-! ## `range_cache.rs`: the tombstone-bearing range cache -/

/-- `RangeCacheResult` (defined identically in both `range_cache.rs` and
`mirror.rs`). -/
structure RangeCacheResult where
  package_is_new : Bool
  range_is_new : Bool
deriving DecidableEq

namespace RangeCache

/-- `range_cache.rs::Ranges`: the accumulated ranges of one package. -/
structure Ranges where
  inner : List Range
deriving DecidableEq

/-- `Ranges::satisfies`: the source loops over `inner` returning true at the
first satisfying range — i.e. a disjunction. -/
def Ranges.satisfies (rs : Ranges) (version : Version) : Bool :=
  rs.inner.any (fun range => range.satisfies version)

/-- `Ranges::max_satisfying`: one `max_satisfying` hit per accumulated range,
kept in range order. -/
def Ranges.max_satisfying (rs : Ranges) (versions : List Version) : List Version :=
  rs.inner.filterMap (fun range => range.max_satisfying versions)

/-- `range_cache.rs::PackageRangeCache`: per-package accumulated ranges plus the
tombstone set. -/
structure PackageRangeCache where
  versions : List (String × Ranges)
  removed : List String
deriving DecidableEq

/-- Appends `new_range` to the entry for `package` (the `get_mut`/`push` arm of
`insert`). -/
def pushRange : List (String × Ranges) → String → Range → List (String × Ranges)
  | [], _, _ => []
  | e :: rest, package, new_range =>
    (if e.1 = package then (e.1, ⟨e.2.inner ++ [new_range]⟩) else e) ::
      pushRange rest package new_range

/-- `PackageRangeCache::insert` (range_cache.rs lines 81-111): tombstone check,
then the dominance check `new_range.allows_all(range)` over the existing ranges,
then the mutation. -/
def PackageRangeCache.insert (st : PackageRangeCache) (package : String)
    (new_range : Range) : PackageRangeCache × RangeCacheResult :=
  if st.removed.contains package then
    (st, { package_is_new := false, range_is_new := false })
  else
    match alookup st.versions package with
    | some ranges =>
      if ranges.inner.any (fun range => new_range.allows_all range) then
        (st, { package_is_new := false, range_is_new := false })
      else
        ({ st with versions := pushRange st.versions package new_range },
         { package_is_new := false, range_is_new := true })
    | none =>
      ({ st with versions := st.versions ++ [(package, ⟨[new_range]⟩)] },
       { package_is_new := true, range_is_new := true })

/-- `PackageRangeCache::satisifies` (the source spells it that way). -/
def PackageRangeCache.satisifies (st : PackageRangeCache) (package : String)
    (version : Version) : Bool :=
  if st.removed.contains package then false
  else
    match alookup st.versions package with
    | some ranges => ranges.satisfies version
    | none => false

/-- `PackageRangeCache::max_satisfying`. -/
def PackageRangeCache.max_satisfying (st : PackageRangeCache) (package : String)
    (versions : List Version) : List Version :=
  if st.removed.contains package then []
  else
    match alookup st.versions package with
    | some ranges => ranges.max_satisfying versions
    | none => []

/-- `PackageRangeCache::remove`: drop the entry, add the tombstone. -/
def PackageRangeCache.remove (st : PackageRangeCache) (package : String) :
    PackageRangeCache :=
  { versions := st.versions.filter (fun e => !(e.1 = package : Bool)),
    removed := package :: st.removed }

/-- A sequential trace of `insert` calls, collecting each call's result. -/
def PackageRangeCache.runInserts (st : PackageRangeCache) :
    List (String × Range) → PackageRangeCache × List RangeCacheResult
  | [] => (st, [])
  | (p, r) :: rest =>
    let step := st.insert p r
    let next := step.1.runInserts rest
    (next.1, step.2 :: next.2)

/-- The ranges currently tracked for a package (empty when absent). -/
def trackedRanges (st : PackageRangeCache) (package : String) : List Range :=
  match alookup st.versions package with
  | some ranges => ranges.inner
  | none => []

end RangeCache

/-! ## Character-list string helpers

The Rust code manipulates `&str` values with `strip_prefix`, `starts_with`,
`trim`, `split_once` and `find`; dependency specs and URLs are modelled as
`List Char` and these helpers mirror those `str` methods (indices are
character positions; all inputs of interest are ASCII, where Rust's byte
positions coincide). -/

/-- `str::strip_prefix`: the remainder after the prefix, or none. -/
def stripPrefixStr : List Char → List Char → Option (List Char)
  | [], s => some s
  | _ :: _, [] => none
  | c :: p, d :: s => if c = d then stripPrefixStr p s else none

/-- `str::starts_with`. -/
def startsWithStr (p s : List Char) : Bool :=
  (stripPrefixStr p s).isSome

/-- `str::strip_suffix`. -/
def stripSuffixStr (p s : List Char) : Option (List Char) :=
  (stripPrefixStr p.reverse s.reverse).map List.reverse

/-- `value.trim().is_empty()` holds exactly when every character is
whitespace. -/
def trimIsEmpty (s : List Char) : Bool :=
  s.all Char.isWhitespace

/-- `str::split_once`: split at the first occurrence of `c`, delimiter
excluded. -/
def splitOnceAt (c : Char) : List Char → Option (List Char × List Char)
  | [] => none
  | d :: rest =>
    if d = c then some ([], rest)
    else (splitOnceAt c rest).map (fun q => (d :: q.1, q.2))

/-- Split at the last occurrence of `c` (used only by the spec-side
classifier below; the source itself uses `split_once`). -/
def splitLastAt (c : Char) (s : List Char) : Option (List Char × List Char) :=
  (splitOnceAt c s.reverse).map (fun q => (q.2.reverse, q.1.reverse))

/-- `str::find(&str)`: position of the first occurrence of `pat`, or none
(the empty pattern matches at 0). -/
def findSub : List Char → List Char → Option Nat
  | [], pat => if startsWithStr pat [] then some 0 else none
  | c :: rest, pat =>
    if startsWithStr pat (c :: rest) then some 0
    else (findSub rest pat).map (fun n => n + 1)

/-! ## `mirror.rs`: the orchestrator's own range cache and Phase 2/3 selection -/

namespace Mirror

/-- `mirror.rs::Ranges` (the orchestrator defines its own copy, without the
tombstone machinery of `range_cache.rs`). -/
structure Ranges where
  inner : List Range
deriving DecidableEq

/-- `mirror.rs::Ranges::satisfies`. -/
def Ranges.satisfies (rs : Ranges) (version : Version) : Bool :=
  rs.inner.any (fun range => range.satisfies version)

/-- `mirror.rs::PackageRangeCache`: accumulated ranges only, no removed set. -/
structure PackageRangeCache where
  versions : List (String × Ranges)
deriving DecidableEq

/-- The `get_mut`/`push` arm of `mirror.rs::insert`. -/
def pushRange : List (String × Ranges) → String → Range → List (String × Ranges)
  | [], _, _ => []
  | e :: rest, package, new_range =>
    (if e.1 = package then (e.1, ⟨e.2.inner ++ [new_range]⟩) else e) ::
      pushRange rest package new_range

/-- `mirror.rs::PackageRangeCache::satisifies`. -/
def PackageRangeCache.satisifies (st : PackageRangeCache) (package : String)
    (version : Version) : Bool :=
  match alookup st.versions package with
  | some ranges => ranges.satisfies version
  | none => false

/-- `mirror.rs::PackageRangeCache::insert` (lines 313-339): the dominance check
`new_range.allows_all(range)`, then push or fresh entry. -/
def PackageRangeCache.insert (st : PackageRangeCache) (package : String)
    (new_range : Range) : PackageRangeCache × RangeCacheResult :=
  match alookup st.versions package with
  | some ranges =>
    if ranges.inner.any (fun range => new_range.allows_all range) then
      (st, { package_is_new := false, range_is_new := false })
    else
      (⟨pushRange st.versions package new_range⟩,
       { package_is_new := false, range_is_new := true })
  | none =>
    (⟨st.versions ++ [(package, ⟨[new_range]⟩)]⟩,
     { package_is_new := true, range_is_new := true })

/-- The versions Phase 2 (`download_child_metadata`, mirror.rs lines 137-152)
processes for one package: each version key of the metadata document is kept
exactly when `range_cache.satisifies(package, version)` holds (the `visited`
set only suppresses re-processing of pairs already expanded, and parse
failures of foreign version keys are skipped; neither affects which
satisfying versions of a document are selected on first encounter). -/
def selectedVersions (st : PackageRangeCache) (package : String)
    (versions : List Version) : List Version :=
  versions.filter (fun version => st.satisifies package version)

/-- The versions Phase 3 (`download_packages`, mirror.rs lines 66-99) selects:
each version key is kept exactly when `ranges.satisfies(version)` holds for
the package's accumulated `Ranges`. -/
def packageSelectedVersions (ranges : Ranges) (versions : List Version) :
    List Version :=
  versions.filter (fun version => ranges.satisfies version)

/-- `mirror.rs::populate_child_deps` (lines 179-242).  `deps` is the
dependency table (name, raw spec string) in iteration order; `packages` is the
next-round frontier.  Returns the updated cache, the list of packages whose
metadata download was queued, and the updated frontier.  A spec that trims to
empty, carries one of the reserved prefixes, starts with `npm:`, or fails to
parse as a Range is skipped (`continue`). -/
def populate_child_deps (parseRange : List Char → Option SemverRange) :
    PackageRangeCache → List (String × List Char) → List String →
      PackageRangeCache × List String × List String
  | st, [], packages => (st, [], packages)
  | st, (dep, range) :: rest, packages =>
    if trimIsEmpty range then populate_child_deps parseRange st rest packages
    else if startsWithStr "link:".data range then
      populate_child_deps parseRange st rest packages
    else if startsWithStr "git".data range then
      populate_child_deps parseRange st rest packages
    else if startsWithStr "gist".data range then
      populate_child_deps parseRange st rest packages
    else if startsWithStr "workspace".data range then
      populate_child_deps parseRange st rest packages
    else if startsWithStr "http".data range then
      populate_child_deps parseRange st rest packages
    else if startsWithStr "file".data range then
      populate_child_deps parseRange st rest packages
    else if startsWithStr ".".data range then
      populate_child_deps parseRange st rest packages
    else if (stripPrefixStr "npm:".data range).isSome then
      populate_child_deps parseRange st rest packages
    else
      match parseRange range with
      | none => populate_child_deps parseRange st rest packages
      | some package_range =>
        let step := st.insert dep package_range
        let queuedHere := if step.2.package_is_new then [dep] else []
        let packages1 :=
          if step.2.package_is_new || step.2.range_is_new then
            if packages.contains dep then packages else packages ++ [dep]
          else packages
        let next := populate_child_deps parseRange step.1 rest packages1
        (next.1, queuedHere ++ next.2.1, next.2.2)

/-- The condition under which `populate_child_deps` skips an entry without
touching any state: empty-after-trim, a reserved prefix, the `npm:` prefix, or
failure to parse as a Range. -/
def isSkippedSpec (parseRange : List Char → Option SemverRange)
    (range : List Char) : Bool :=
  trimIsEmpty range || startsWithStr "link:".data range ||
    startsWithStr "git".data range || startsWithStr "gist".data range ||
    startsWithStr "workspace".data range || startsWithStr "http".data range ||
    startsWithStr "file".data range || startsWithStr ".".data range ||
    (stripPrefixStr "npm:".data range).isSome || (parseRange range).isNone

end Mirror

/-! ## `sparse_metadata.rs`: the dependency-spec classifier -/

/-- `sparse_metadata.rs::DepVersion`. -/
inductive DepVersion where
  | Tag (tag : List Char)
  | Range (range : SemverRange)
  | SubDep (package : List Char) (range : SemverRange)
  | Other (raw : List Char)
deriving DecidableEq

/-- The reserved-prefix/emptiness test of `visit_borrowed_str` (lines 23-33),
factored out of the classifier verbatim. -/
def otherSpecCond (value : List Char) : Bool :=
  trimIsEmpty value || startsWithStr "link:".data value ||
    startsWithStr "git".data value || startsWithStr "gist".data value ||
    startsWithStr "workspace:".data value || startsWithStr "http".data value ||
    startsWithStr "file:".data value || startsWithStr ".".data value ||
    startsWithStr "/".data value

/-- `VersionRangeDeserializer::visit_borrowed_str` (sparse_metadata.rs lines
16-52).  `parseRange` stands for the external `Range::from_str`.  Precedence:
Range, then Other, then the `npm:` alias split with `split_once('@')` (first
`@`), then Tag. -/
def visit_borrowed_str (parseRange : List Char → Option SemverRange)
    (value : List Char) : DepVersion :=
  match parseRange value with
  | some r => .Range r
  | none =>
    if otherSpecCond value then .Other value
    else
      match stripPrefixStr "npm:".data value with
      | some sub_package =>
        match splitOnceAt '@' sub_package with
        | some nv =>
          match parseRange nv.2 with
          | some sub_pkg_v => .SubDep nv.1 sub_pkg_v
          | none => .Tag value
        | none => .Tag value
      | none => .Tag value

/-- The classifier as claim C6 words it: identical to `visit_borrowed_str`
except that the `npm:` remainder is split at the LAST `@`.  Defined for
comparison against the source classifier. -/
def claimedNpmClassification (parseRange : List Char → Option SemverRange)
    (value : List Char) : DepVersion :=
  match parseRange value with
  | some r => .Range r
  | none =>
    if otherSpecCond value then .Other value
    else
      match stripPrefixStr "npm:".data value with
      | some sub_package =>
        match splitLastAt '@' sub_package with
        | some nv =>
          match parseRange nv.2 with
          | some sub_pkg_v => .SubDep nv.1 sub_pkg_v
          | none => .Tag value
        | none => .Tag value
      | none => .Tag value

/-! ## `package_index.rs`: the compact index -/

/-- `package_index.rs::TarballUrl`. -/
inductive TarballUrl where
  | Short (basename : List Char)
  | Full (url : List Char)
deriving DecidableEq

/-- `package_index.rs::IdxDepVersion`. -/
inductive IdxDepVersion where
  | Tag (tag : List Char)
  | Range (range : SemverRange)
  | SubDep (package : List Char) (range : SemverRange)
  | Other (raw : List Char)
deriving DecidableEq

/-- `package_index.rs::IdxDep`. -/
structure IdxDep where
  package : String
  range : IdxDepVersion
deriving DecidableEq

/-- `package_index.rs::PackageIndex`: parallel arrays indexed by version
position. -/
structure PackageIndex where
  dist_tags : List (String × Nat)
  versions : List Version
  tarballs : List (Option TarballUrl)
  deps : List (List IdxDep)
deriving DecidableEq

/-- `PackageIndex::version_by_tag` (lines 131-134). -/
def PackageIndex.version_by_tag (idx : PackageIndex) (tag : String) :
    Option Version :=
  (alookup idx.dist_tags tag).bind (fun pos => idx.versions.get? pos)

/-- `package_index.rs::strip_path` (lines 152-160): `Short(basename)` when the
URL has the registry prefix, the remainder contains the package name (first
occurrence), and the text right after that occurrence starts with the
slash, dash, slash sentinel;
otherwise `Full(url)`. -/
def strip_path (v package registry_url : List Char) : TarballUrl :=
  match stripPrefixStr registry_url v with
  | none => .Full v
  | some stripped =>
    match findSub stripped package with
    | none => .Full v
    | some pos =>
      match stripPrefixStr "/-/".data (stripped.drop (package.length + pos)) with
      | none => .Full v
      | some vv => .Short vv

/-- The URL reconstruction of `Download::tarball` (downloader.rs lines
326-343): a `Short` form is rebuilt as registry, package, sentinel, basename
(after the source's `strip_prefix('/')` on the registry base), a `Full` form
is used as-is. -/
def tarball_url (registry_url package : List Char) (u : TarballUrl) : List Char :=
  let url_base :=
    match stripPrefixStr "/".data registry_url with
    | some v => v
    | none => registry_url
  match u with
  | .Short short => url_base ++ "/".data ++ package ++ "/-/".data ++ short
  | .Full v => v

/-! ## Claim-side model of the Phase-2 expansion C4 describes -/

/-- The single-version range equal to `v` (contains exactly `v` among
triples). -/
def exactRange (v : Version) : Range :=
  ⟨v, some ⟨v.major, v.minor, v.patch + 1⟩⟩

/-- The claim's `process(package, range)`: insert into the (mirror.rs) range
cache; queue a metadata download when the package is new. -/
def claimedProcess (st : Mirror.PackageRangeCache) (package : String)
    (range : Range) : Mirror.PackageRangeCache × List String :=
  let step := st.insert package range
  (step.1, if step.2.package_is_new then [package] else [])

/-- Claim C4's description of how one dependency spec is expanded in Phase 2:
classify, resolve a `Tag` through the dependee's index via `version_by_tag`
(recursing as the single-version range when found), process a `SubDep` as
`process(package, range)`, process a `Range` directly, ignore `Other`.
Defined for comparison against the source's `populate_child_deps`. -/
def claimedExpandDep (parseRange : List Char → Option SemverRange)
    (idx : PackageIndex) (st : Mirror.PackageRangeCache) (dep : String)
    (spec : List Char) : Mirror.PackageRangeCache × List String :=
  match visit_borrowed_str parseRange spec with
  | .Range r => claimedProcess st dep r
  | .Tag t =>
    match idx.version_by_tag (String.mk t) with
    | some v => claimedProcess st dep (exactRange v)
    | none => (st, [])
  | .SubDep name r => claimedProcess st (String.mk name) r
  | .Other _ => (st, [])

/-! ## `meta_cache.rs` and the index codec framing -/

/-- Big-endian 8-byte encoding of a `u64` length (tokio's `write_u64`). -/
def toU64BE (n : Nat) : List Nat :=
  [n / 2 ^ 56 % 256, n / 2 ^ 48 % 256, n / 2 ^ 40 % 256, n / 2 ^ 32 % 256,
   n / 2 ^ 24 % 256, n / 2 ^ 16 % 256, n / 2 ^ 8 % 256, n % 256]

/-- Big-endian read of a `u64` from the front of a byte list (`read_u64`),
returning the remaining bytes; none when fewer than 8 bytes are present
(`read_u64` panics there — unreachable for blobs written by the encoder). -/
def fromU64BE? : List Nat → Option (Nat × List Nat)
  | b0 :: b1 :: b2 :: b3 :: b4 :: b5 :: b6 :: b7 :: rest =>
    some (((((((b0 * 256 + b1) * 256 + b2) * 256 + b3) * 256 + b4) * 256 + b5)
      * 256 + b6) * 256 + b7, rest)
  | _ => none

/-- The decode path of `MetaCache::get` (meta_cache.rs lines 14-26) applied to
one stored blob: read the `u64` uncompressed length, decompress the remaining
bytes into a buffer of exactly that length, deserialize.  `decompress` and
`deserialize` stand for the external `zstd::stream::copy_decode` and
`bitcode::deserialize`; a length mismatch or failure is the source's
"corrupt cache" panic, modelled as none. -/
def readPackageBlob (decompress : List Nat → Option (List Nat))
    (deserialize : List Nat → Option PackageIndex) (blob : List Nat) :
    Option PackageIndex :=
  match fromU64BE? blob with
  | none => none
  | some lr =>
    match decompress lr.2 with
    | none => none
    | some buf => if buf.length = lr.1 then deserialize buf else none

/-- The encode framing of `write_package_idx` (package_index.rs lines 162-173):
`u64` big-endian uncompressed length, then the compressed serialization.
`serialize` and `compress` stand for `bitcode::serialize` and
`zstd::encode_all` at level 3. -/
def encodePackageIdx (serialize : PackageIndex → List Nat)
    (compress : List Nat → List Nat) (pkg_idx : PackageIndex) : List Nat :=
  let idx_data := serialize pkg_idx
  toU64BE idx_data.length ++ compress idx_data

/-- `meta_cache.rs::MetaCache`: the position map and the append-only byte
vector. -/
structure MetaCache where
  pos_map : List (String × (Nat × Nat))
  data : List Nat
deriving DecidableEq

/-- `MetaCache::insert` (lines 28-41): refuse when the key exists, otherwise
record `(current_length, blob_length)` and append. -/
def MetaCache.insert (c : MetaCache) (package : String) (blob : List Nat) :
    MetaCache × Bool :=
  if (alookup c.pos_map package).isSome then (c, false)
  else
    ({ pos_map := (package, (c.data.length, blob.length)) :: c.pos_map,
       data := c.data ++ blob }, true)

/-- `MetaCache::get` (lines 14-26): locate the slice, then decode it. -/
def MetaCache.get (decompress : List Nat → Option (List Nat))
    (deserialize : List Nat → Option PackageIndex) (c : MetaCache)
    (package : String) : Option PackageIndex :=
  match alookup c.pos_map package with
  | none => none
  | some pl => readPackageBlob decompress deserialize ((c.data.drop pl.1).take pl.2)

/-! ## `downloader.rs`: the worker handlers -/

/-- `error.rs::ErrorKind`, restricted to the variants the downloader paths
produce.  `Checksum` carries the raw digests (the source stores their hex
renderings; hex encoding is injective so equality is unaffected). -/
inductive ErrorKind where
  | Download (url : List Char) (status_code : Nat)
  | Checksum (url : List Char) (expected : List Nat) (hash : List Nat)
  | Io
  | Reqwest
  | Serde
  | AsyncChannelSend
deriving DecidableEq

/-- An on-disk entry: a regular file with contents, or a symlink storing its
target basename. -/
inductive FsEntry where
  | file (contents : List Nat)
  | link (target : String)
deriving DecidableEq

/-- The file system as a partial map from component paths to entries. -/
abbrev Fs := List String → Option FsEntry

/-- Create/overwrite a path. -/
def fsWrite (fs : Fs) (p : List String) (e : FsEntry) : Fs :=
  fun q => if q = p then some e else fs q

/-- Remove a path (`remove_file`; removing an absent path is tolerated by the
callers modelled here). -/
def fsRemove (fs : Fs) (p : List String) : Fs :=
  fun q => if q = p then none else fs q

/-- `Path::exists`. -/
def fsExists (fs : Fs) (p : List String) : Bool :=
  (fs p).isSome

/-- `StatusCode::is_success`: 2xx. -/
def statusIsSuccess (status : Nat) : Bool :=
  decide (200 ≤ status) && decide (status < 300)

/-- The outcome of one HTTP send: a transport error, or a response with a
status, an optional raw `ETag` header and the body chunks (HEAD responses
carry no meaningful chunks). -/
inductive HttpOutcome where
  | err
  | ok (status : Nat) (etag_header : Option (List Char)) (chunks : List (List Nat))
deriving DecidableEq

/-- `downloader.rs::get_etag` (lines 213-221): strip one pair of surrounding
quotes when both are present, otherwise return the header verbatim. -/
def get_etag : Option (List Char) → Option (List Char)
  | none => none
  | some etag =>
    some (((stripPrefixStr ['\"'] etag).bind
      (fun v => stripSuffixStr ['\"'] v)).getD etag)

/-- `DownloadTask::needs_downloading` (downloader.rs lines 59-76): a failed or
non-2xx HEAD yields false; a successful HEAD without an ETag yields true; with
an ETag, true exactly when the sibling file named by the ETag is absent. -/
def needs_downloading (fs : Fs) (head : HttpOutcome) (target_path : List String) :
    Bool :=
  match head with
  | .err => false
  | .ok status etag_header _ =>
    if statusIsSuccess status then
      match get_etag etag_header with
      | none => true
      | some etag => !fsExists fs (target_path.dropLast ++ [String.mk etag])
    else false

/-- The not-needed (cached) branch of `download_metadata` (lines 148-154): read
the sibling `index.json.idx` (an `Io` failure propagates when it cannot be
read), insert its bytes into the MetaCache, report skipped. -/
def cachedBranch (fs : Fs) (cache : MetaCache) (package : String)
    (target_path : List String) : Fs × MetaCache × Except ErrorKind Bool :=
  match fs (target_path.dropLast ++ ["index.json.idx"]) with
  | some (.file blob) => (fs, (cache.insert package blob).1, .ok false)
  | _ => (fs, cache, .error .Io)

/-- `DownloadTask::download_metadata` (downloader.rs lines 78-155).  `head` and
`get` are the outcomes of the HEAD probe and of the GET; `parseIdx` stands for
the serde parse composed with the index projection and encoding: it returns
the metadata document's `name` field and the encoded index blob, or none on a
parse failure (`Serde`).  Byte-progress accounting and directory creation are
effect-free here; the ETag symlink bookkeeping keeps the source's sequence
(read_link, remove the old link target, remove the link, create a fresh link
to the basename of the real destination). -/
def download_metadata (fs : Fs) (cache : MetaCache) (head get : HttpOutcome)
    (package : String) (url : List Char) (target_path : List String)
    (parseIdx : List Nat → Option (String × List Nat)) :
    Fs × MetaCache × Except ErrorKind Bool :=
  if needs_downloading fs head target_path then
    match get with
    | .err => (fs, cache, .error .Reqwest)
    | .ok status etag_header chunks =>
      if statusIsSuccess status then
        let realTarget :=
          match get_etag etag_header with
          | some etag => (target_path.dropLast ++ [String.mk etag], true)
          | none => (target_path, false)
        let body := chunks.flatten
        match parseIdx body with
        | none => (fs, cache, .error .Serde)
        | some nb =>
          let fs1 := fsWrite fs realTarget.1 (.file body)
          let fs2 := fsWrite fs1 (target_path.dropLast ++ ["index.json.idx"])
            (.file nb.2)
          let cache1 := (cache.insert nb.1 nb.2).1
          if realTarget.2 then
            let fs3 :=
              match fs2 target_path with
              | some (.link old) => fsRemove fs2 (target_path.dropLast ++ [old])
              | _ => fs2
            let fs4 := fsRemove fs3 target_path
            let fs5 := fsWrite fs4 target_path
              (.link (realTarget.1.getLast?.getD ""))
            (fs5, cache1, .ok true)
          else (fs2, cache1, .ok true)
      else (fs, cache, .error (.Download url status))
  else cachedBranch fs cache package target_path

/-- `DownloadTask::download_tarball` (downloader.rs lines 157-210).  `hashFn`
stands for the SHA-512 digest of the streamed bytes (the per-chunk hasher sees
the chunks in order, so its digest is a function of the concatenation). -/
def download_tarball (hashFn : List Nat → List Nat) (fs : Fs) (url : List Char)
    (target_path : List String) (checksum : Option (List Nat))
    (resp : HttpOutcome) : Fs × Except ErrorKind Bool :=
  if fsExists fs target_path then (fs, .ok false)
  else
    match resp with
    | .err => (fs, .error .Reqwest)
    | .ok status _ chunks =>
      if statusIsSuccess status then
        let contents := chunks.flatten
        match checksum with
        | some expected_checksum =>
          let fs1 := fsWrite fs target_path (.file contents)
          let digest := hashFn contents
          if expected_checksum = digest then (fs1, .ok true)
          else
            (fsRemove fs1 target_path,
             .error (.Checksum url expected_checksum digest))
        | none => (fsWrite fs target_path (.file contents), .ok true)
      else (fs, .error (.Download url status))

/-! ## `progress.rs`: the per-phase file counters -/

/-- `progress.rs::ProgressPart` (the four counters; atomics become plain
naturals since each increment is atomic and SeqCst). -/
structure ProgressPart where
  total : Nat
  success : Nat
  skipped : Nat
  failed : Nat
deriving DecidableEq

/-- `ProgressPart::remaining` (lines 212-217): unsigned subtraction. -/
def ProgressPart.remaining (c : ProgressPart) : Nat :=
  c.total - c.success - c.skipped - c.failed

/-- The counter transition of `DownloadTask::download_and_track` (downloader.rs
lines 30-47): Ok(true) is a success, Ok(false) a skip, a 404 download error a
skip, checksum and other download errors failures, anything else a skip. -/
def ProgressPart.track (c : ProgressPart) (res : Except ErrorKind Bool) :
    ProgressPart :=
  match res with
  | .ok true => { c with success := c.success + 1 }
  | .ok false => { c with skipped := c.skipped + 1 }
  | .error e =>
    match e with
    | .Download _ status_code =>
      if status_code = 404 then { c with skipped := c.skipped + 1 }
      else { c with failed := c.failed + 1 }
    | .Checksum _ _ _ => { c with failed := c.failed + 1 }
    | _ => { c with skipped := c.skipped + 1 }

/-- One observable counter event: `Downloader::queue` bumping `files.total`
(lines 279-285), or a worker finishing one request with some download result. -/
inductive DlEvent where
  | queue
  | process (res : Except ErrorKind Bool)

/-- Replay a sequence of counter events. -/
def runEvents (c : ProgressPart) : List DlEvent → ProgressPart
  | [] => c
  | .queue :: rest => runEvents { c with total := c.total + 1 } rest
  | .process res :: rest => runEvents (c.track res) rest

/-- Number of queue events. -/
def queueCount : List DlEvent → Nat
  | [] => 0
  | .queue :: rest => queueCount rest + 1
  | .process _ :: rest => queueCount rest

/-- Number of process events. -/
def processCount : List DlEvent → Nat
  | [] => 0
  | .queue :: rest => processCount rest
  | .process _ :: rest => processCount rest + 1

/-- A trace is balanced when no request is processed before it was queued:
`pending` counts queued-but-unprocessed requests. -/
def balanced : Nat → List DlEvent → Bool
  | _, [] => true
  | pending, .queue :: rest => balanced (pending + 1) rest
  | pending, .process _ :: rest =>
    match pending with
    | 0 => false
    | k + 1 => balanced k rest

/-! ## Concrete instances used by counterexamples and witnesses -/

/-- The exact pin `1.0.0` as an interval. -/
def rPinned : Range := ⟨⟨1, 0, 0⟩, some ⟨1, 0, 1⟩⟩

/-- The unbounded range `>=1.0.0`. -/
def rWide : Range := ⟨⟨1, 0, 0⟩, none⟩

/-- The caret range `^1.0.0` as an interval. -/
def rCaret : Range := ⟨⟨1, 0, 0⟩, some ⟨2, 0, 0⟩⟩

/-- A concrete stand-in for `Range::from_str` that parses exactly the string
`1.0.0` (to the pin) and `^1.0.0` (to the caret range), rejecting everything
else — consistent with semver range syntax on the strings fed to it. -/
def parseRangeEx (s : List Char) : Option SemverRange :=
  if s = "1.0.0".data then some rPinned
  else if s = "^1.0.0".data then some rCaret
  else none

/-- A mirror-orchestrator cache tracking `^1.0.0` for package `p`. -/
def mirrorStC2 : Mirror.PackageRangeCache := ⟨[("p", ⟨[rCaret]⟩)]⟩

/-- The same accumulated state in the `range_cache.rs` cache. -/
def rcStC2 : RangeCache.PackageRangeCache := ⟨[("p", ⟨[rCaret]⟩)], []⟩

/-- Two published versions, both inside `^1.0.0`. -/
def versionsC2 : List Version := [⟨1, 0, 0⟩, ⟨1, 2, 0⟩]

/-- A dependee index with `dist-tags {latest: 1.0.0}` and one version. -/
def idxC4 : PackageIndex := ⟨[("latest", 0)], [⟨1, 0, 0⟩], [none], [[]]⟩

/-- An empty file system. -/
def fsEmpty : Fs := fun _ => none

/-- A file system holding only `output/x/index.json.idx`. -/
def fsIdxOnly : Fs :=
  fun p => if p = ["output", "x", "index.json.idx"] then some (.file [9]) else none

/-- The metadata target path `output/x/index.json`. -/
def targetC5 : List String := ["output", "x", "index.json"]

/-- An empty meta cache. -/
def cacheEmpty : MetaCache := ⟨[], []⟩

/-- A concrete stand-in for the parse-project-encode pipeline of the metadata
handler: every body parses to package name `x` with encoded index blob `[5]`. -/
def parseIdxC5 (bytes : List Nat) : Option (String × List Nat) := some ("x", [5])

/-- The trivial stand-in digest (the identity on byte lists) used to
instantiate `hashFn` in witnesses. -/
def idDigest (bytes : List Nat) : List Nat := bytes

/-- The empty projected index. -/
def idxEmpty : PackageIndex := ⟨[], [], [], []⟩

/-- A concrete serializer for the codec witness. -/
def serializeW (idx : PackageIndex) : List Nat := [42]

/-- A concrete deserializer for the codec witness. -/
def deserializeW (bytes : List Nat) : Option PackageIndex := some idxEmpty

/-- A concrete no-op compressor for witnesses. -/
def compressW (bytes : List Nat) : List Nat := bytes

/-- A concrete no-op decompressor for witnesses. -/
def decompressW (bytes : List Nat) : Option (List Nat) := some bytes

/-- A concrete balanced counter trace: queue, success, queue, failed
download. -/
def traceEx : List DlEvent :=
  [.queue, .process (.ok true), .queue, .process (.error (.Download "u".data 500))]

/-! # Theorems -/

/-! ## Order and range lemmas -/

theorem Version.leb_trans {a b c : Version} (h1 : Version.leb a b = true)
    (h2 : Version.leb b c = true) : Version.leb a c = true := by
  cases a; cases b; cases c
  simp only [Version.leb, Version.ltb, Bool.or_eq_true, Bool.and_eq_true,
    decide_eq_true_eq, Version.mk.injEq] at *
  omega

theorem Version.ltb_of_ltb_of_leb {a b c : Version} (h1 : Version.ltb a b = true)
    (h2 : Version.leb b c = true) : Version.ltb a c = true := by
  cases a; cases b; cases c
  simp only [Version.leb, Version.ltb, Bool.or_eq_true, Bool.and_eq_true,
    decide_eq_true_eq, Version.mk.injEq] at *
  omega

/-- The modelled `allows_all` really is a superset test: when it holds, every
version satisfying the dominated range satisfies the dominating one. -/
theorem Range.allows_all_sound {r other : Range} {v : Version}
    (h : r.allows_all other = true) (hs : other.satisfies v = true) :
    r.satisfies v = true := by
  rcases r with ⟨lo, hi⟩
  rcases other with ⟨lo2, hi2⟩
  simp only [Range.allows_all, Range.satisfies, Bool.and_eq_true] at *
  refine ⟨Version.leb_trans h.1 hs.1, ?_⟩
  cases hi with
  | none => rfl
  | some h1 =>
    cases hi2 with
    | none => simp at h
    | some h2 =>
      simp only at *
      exact Version.ltb_of_ltb_of_leb hs.2 h.2

/-! ## Association-list lemmas -/

theorem alookup_append_some {α : Type} {m1 : List (String × α)} (m2 : List (String × α))
    {p : String} {x : α} (h : alookup m1 p = some x) :
    alookup (m1 ++ m2) p = some x := by
  induction m1 with
  | nil => simp [alookup] at h
  | cons e rest ih =>
    simp only [alookup, List.cons_append] at *
    by_cases he : e.1 = p <;> simp [he] at h ⊢
    · exact h
    · exact ih h

theorem alookup_append_none {α : Type} {m1 : List (String × α)} (m2 : List (String × α))
    {p : String} (h : alookup m1 p = none) :
    alookup (m1 ++ m2) p = alookup m2 p := by
  induction m1 with
  | nil => simp [alookup]
  | cons e rest ih =>
    simp only [alookup, List.cons_append] at *
    by_cases he : e.1 = p <;> simp [he] at h ⊢
    exact ih h

/-! ## Range-cache lemmas -/

namespace RangeCache

theorem alookup_pushRange_self (m : List (String × Ranges)) (q : String) (r : Range) :
    alookup (pushRange m q r) q = (alookup m q).map (fun rs => ⟨rs.inner ++ [r]⟩) := by
  induction m with
  | nil => rfl
  | cons e rest ih =>
    simp only [pushRange]
    by_cases h1 : e.1 = q
    · subst h1
      simp [alookup]
    · simp [alookup, h1, ih]

theorem alookup_pushRange_ne (m : List (String × Ranges)) {p q : String} (r : Range)
    (hne : ¬ p = q) : alookup (pushRange m q r) p = alookup m p := by
  induction m with
  | nil => rfl
  | cons e rest ih =>
    simp only [pushRange]
    by_cases h1 : e.1 = q
    · subst h1
      have h2 : ¬ e.1 = p := fun hc => hne hc.symm
      simp [alookup, h2, ih]
    · simp only [h1, if_false, alookup]
      by_cases h2 : e.1 = p
      · rw [if_pos h2, if_pos h2]
      · rw [if_neg h2, if_neg h2]
        exact ih

theorem insert_eq_of_removed {st : PackageRangeCache} {q : String} (r : Range)
    (h : st.removed.contains q = true) :
    st.insert q r = (st, ⟨false, false⟩) := by
  unfold PackageRangeCache.insert
  rw [if_pos h]

theorem insert_eq_of_dominated {st : PackageRangeCache} {q : String} {r : Range}
    {ranges : Ranges} (h1 : st.removed.contains q = false)
    (h2 : alookup st.versions q = some ranges)
    (h3 : ranges.inner.any (fun range => r.allows_all range) = true) :
    st.insert q r = (st, ⟨false, false⟩) := by
  unfold PackageRangeCache.insert
  rw [if_neg (h1 ▸ Bool.false_ne_true), h2]
  simp [h3]

theorem insert_eq_push {st : PackageRangeCache} {q : String} {r : Range}
    {ranges : Ranges} (h1 : st.removed.contains q = false)
    (h2 : alookup st.versions q = some ranges)
    (h3 : ranges.inner.any (fun range => r.allows_all range) = false) :
    st.insert q r =
      ({ st with versions := pushRange st.versions q r }, ⟨false, true⟩) := by
  unfold PackageRangeCache.insert
  rw [if_neg (h1 ▸ Bool.false_ne_true), h2]
  simp [h3]

theorem insert_eq_new {st : PackageRangeCache} {q : String} (r : Range)
    (h1 : st.removed.contains q = false) (h2 : alookup st.versions q = none) :
    st.insert q r =
      ({ st with versions := st.versions ++ [(q, ⟨[r]⟩)] }, ⟨true, true⟩) := by
  unfold PackageRangeCache.insert
  rw [if_neg (h1 ▸ Bool.false_ne_true), h2]

theorem insert_removed_eq (st : PackageRangeCache) (q : String) (r : Range) :
    ((st.insert q r).1).removed = st.removed := by
  by_cases hrem : st.removed.contains q
  · rw [insert_eq_of_removed r hrem]
  · have h1 : st.removed.contains q = false := Bool.not_eq_true _ ▸ hrem
    cases halo : alookup st.versions q with
    | some ranges =>
      cases hdom : ranges.inner.any (fun range => r.allows_all range) with
      | true => rw [insert_eq_of_dominated h1 halo hdom]
      | false => rw [insert_eq_push h1 halo hdom]
    | none => rw [insert_eq_new r h1 halo]

theorem insert_tracked_mono {st : PackageRangeCache} {p : String} {x : Range}
    (q : String) (r : Range) (h : x ∈ trackedRanges st p) :
    x ∈ trackedRanges (st.insert q r).1 p := by
  by_cases hrem : st.removed.contains q
  · rw [insert_eq_of_removed r hrem]
    exact h
  · have h1 : st.removed.contains q = false := Bool.not_eq_true _ ▸ hrem
    cases halo : alookup st.versions q with
    | some ranges =>
      cases hdom : ranges.inner.any (fun range => r.allows_all range) with
      | true =>
        rw [insert_eq_of_dominated h1 halo hdom]
        exact h
      | false =>
        rw [insert_eq_push h1 halo hdom]
        unfold trackedRanges at h ⊢
        by_cases hpq : p = q
        · subst hpq
          rw [alookup_pushRange_self, halo]
          rw [halo] at h
          exact List.mem_append_left _ h
        · rw [alookup_pushRange_ne _ _ hpq]
          exact h
    | none =>
      rw [insert_eq_new r h1 halo]
      unfold trackedRanges at h ⊢
      cases h2 : alookup st.versions p with
      | some ranges =>
        simp only [alookup_append_some _ h2]
        rw [h2] at h
        exact h
      | none => simp [h2] at h

theorem runInserts_removed_eq (calls : List (String × Range)) (st : PackageRangeCache) :
    ((st.runInserts calls).1).removed = st.removed := by
  induction calls generalizing st with
  | nil => rfl
  | cons c rest ih =>
    simp only [PackageRangeCache.runInserts]
    rw [ih, insert_removed_eq]

theorem runInserts_tracked_mono (calls : List (String × Range))
    {st : PackageRangeCache} {p : String} {x : Range} (h : x ∈ trackedRanges st p) :
    x ∈ trackedRanges (st.runInserts calls).1 p := by
  induction calls generalizing st with
  | nil => exact h
  | cons c rest ih => exact ih (insert_tracked_mono c.1 c.2 h)

theorem insert_accepted {st : PackageRangeCache} {q : String} {r : Range}
    (h : ((st.insert q r).2).range_is_new = true) :
    r ∈ trackedRanges (st.insert q r).1 q ∧ st.removed.contains q = false := by
  by_cases hrem : st.removed.contains q
  · rw [insert_eq_of_removed r hrem] at h
    simp at h
  · have h1 : st.removed.contains q = false := Bool.not_eq_true _ ▸ hrem
    refine ⟨?_, h1⟩
    cases halo : alookup st.versions q with
    | some ranges =>
      cases hdom : ranges.inner.any (fun range => r.allows_all range) with
      | true =>
        rw [insert_eq_of_dominated h1 halo hdom] at h
        simp at h
      | false =>
        rw [insert_eq_push h1 halo hdom]
        unfold trackedRanges
        rw [alookup_pushRange_self, halo]
        simp
    | none =>
      rw [insert_eq_new r h1 halo]
      unfold trackedRanges
      rw [alookup_append_none _ halo]
      simp [alookup]

theorem mem_tracked_satisfies {st : PackageRangeCache} {p : String} {r : Range}
    {v : Version} (hmem : r ∈ trackedRanges st p) (hrem : st.removed.contains p = false)
    (hsat : r.satisfies v = true) : st.satisifies p v = true := by
  unfold PackageRangeCache.satisifies
  simp only [hrem, Bool.false_eq_true, if_false]
  cases halo : alookup st.versions p with
  | some ranges =>
    unfold trackedRanges at hmem
    rw [halo] at hmem
    simp only [Ranges.satisfies, List.any_eq_true]
    exact ⟨r, hmem, hsat⟩
  | none =>
    unfold trackedRanges at hmem
    rw [halo] at hmem
    simp at hmem

end RangeCache

/-! ## Claim C1 -/

/-- Claim C1 is false as stated: inserting the pin `1.0.0` and then the wider
range `>=1.0.0` makes `insert` reject the second call by the dominance check
(`new_range.allows_all(existing)` rejects supersets), so `2.0.0` — a member of
the second inserted range — is covered by no accumulated range: the union of
tracked ranges is not a superset of every individual inserted range. -/
theorem rangeCache_union_not_superset_cex :
    (RangeCache.PackageRangeCache.runInserts ⟨[], []⟩ [("p", rPinned), ("p", rWide)]).2 =
      [⟨true, true⟩, ⟨false, false⟩] ∧
    Range.satisfies rWide ⟨2, 0, 0⟩ = true ∧
    (RangeCache.PackageRangeCache.runInserts ⟨[], []⟩
        [("p", rPinned), ("p", rWide)]).1.satisifies "p" ⟨2, 0, 0⟩ = false := by
  decide

/-- Claim C1, amended: after any sequence of `insert(pkg, r_i)` calls, the union
of accumulated ranges is a superset of each individual `r_i` whose call was
accepted (`range_is_new = true`): each accepted range is itself still tracked,
so every version it satisfies is satisfied by the accumulated ranges.  (A
dominance-rejected `r_i` — a superset of an already-tracked range — may contain
versions outside the union.) -/
theorem rangeCache_accepted_range_covered
    (st : RangeCache.PackageRangeCache) (calls : List (String × Range))
    (i : Nat) (p : String) (r : Range) (res : RangeCacheResult)
    (hcall : calls.get? i = some (p, r))
    (hres : ((st.runInserts calls).2).get? i = some res)
    (hnew : res.range_is_new = true) :
    ∀ v : Version, r.satisfies v = true →
      (st.runInserts calls).1.satisifies p v = true := by
  induction calls generalizing st i with
  | nil => simp at hcall
  | cons c rest ih =>
    cases i with
    | zero =>
      simp only [List.get?] at hcall
      cases hcall
      simp only [RangeCache.PackageRangeCache.runInserts, List.get?] at hres ⊢
      cases hres
      intro v hv
      obtain ⟨hmem, hrem⟩ := RangeCache.insert_accepted hnew
      have hmem2 := RangeCache.runInserts_tracked_mono rest hmem
      have hrem2 : ((st.insert p r).1.runInserts rest).1.removed.contains p = false := by
        rw [RangeCache.runInserts_removed_eq, RangeCache.insert_removed_eq]
        exact hrem
      exact RangeCache.mem_tracked_satisfies hmem2 hrem2 hv
    | succ j =>
      simp only [List.get?] at hcall
      simp only [RangeCache.PackageRangeCache.runInserts, List.get?] at hres ⊢
      exact ih _ _ hcall hres

/-- Witness: the amended C1 theorem applied to the one-call trace inserting the
pin `1.0.0` for package `p`. -/
theorem rangeCache_accepted_range_covered_w :
    (RangeCache.PackageRangeCache.runInserts ⟨[], []⟩
      [("p", rPinned)]).1.satisifies "p" ⟨1, 0, 0⟩ = true :=
  rangeCache_accepted_range_covered ⟨[], []⟩ [("p", rPinned)] 0 "p" rPinned
    ⟨true, true⟩ (by decide) (by decide) (by decide) ⟨1, 0, 0⟩ (by decide)

/-! ## Claim C2 -/

/-- Claim C2 is false on the code: `mirror.rs` consults no greedy option, and
both selection loops keep every version satisfying some accumulated range.
With `^1.0.0` accumulated for `p` and versions 1.0.0, 1.2.0 published, Phase 2
and Phase 3 select both versions, while `RangeCache.max_satisfying` returns
only 1.2.0. -/
theorem phase_selection_not_max_satisfying_cex :
    Mirror.selectedVersions mirrorStC2 "p" versionsC2 = [⟨1, 0, 0⟩, ⟨1, 2, 0⟩] ∧
    Mirror.packageSelectedVersions ⟨[rCaret]⟩ versionsC2 = [⟨1, 0, 0⟩, ⟨1, 2, 0⟩] ∧
    RangeCache.PackageRangeCache.max_satisfying rcStC2 "p" versionsC2 = [⟨1, 2, 0⟩] ∧
    ¬ Mirror.selectedVersions mirrorStC2 "p" versionsC2 =
        RangeCache.PackageRangeCache.max_satisfying rcStC2 "p" versionsC2 := by
  decide

/-- Claim C2, amended: in both Phase 2 and Phase 3 the selected versions are
exactly those satisfying some accumulated range of the package (greedy
behavior, regardless of the greedy option); `max_satisfying` is not consulted
by the orchestrator. -/
theorem phase_selection_is_all_satisfying (st : Mirror.PackageRangeCache)
    (ranges : Mirror.Ranges) (package : String) (versions : List Version)
    (v : Version) :
    (v ∈ Mirror.selectedVersions st package versions ↔
      v ∈ versions ∧ ∃ rs, alookup st.versions package = some rs ∧
        ∃ r ∈ rs.inner, r.satisfies v = true) ∧
    (v ∈ Mirror.packageSelectedVersions ranges versions ↔
      v ∈ versions ∧ ∃ r ∈ ranges.inner, r.satisfies v = true) := by
  constructor
  · simp only [Mirror.selectedVersions, List.mem_filter,
      Mirror.PackageRangeCache.satisifies]
    constructor
    · rintro ⟨hv, hsat⟩
      cases halo : alookup st.versions package with
      | some rs =>
        rw [halo] at hsat
        simp only [Mirror.Ranges.satisfies, List.any_eq_true] at hsat
        exact ⟨hv, rs, rfl, hsat⟩
      | none =>
        rw [halo] at hsat
        simp at hsat
    · rintro ⟨hv, rs, halo, r, hr, hsat⟩
      refine ⟨hv, ?_⟩
      rw [halo]
      simp only [Mirror.Ranges.satisfies, List.any_eq_true]
      exact ⟨r, hr, hsat⟩
  · simp [Mirror.packageSelectedVersions, List.mem_filter, Mirror.Ranges.satisfies,
      List.any_eq_true]

/-! ## Claim C4 -/

/-- Claim C4 is false on the code: `populate_child_deps` skips `npm:` aliases
outright (the SubDep case) and skips any spec that fails to parse as a Range
(the Tag case) — it resolves no tag through the index and inserts nothing —
whereas the claim's expansion would insert and queue the aliased or
tag-resolved package. -/
theorem populate_child_deps_ignores_subdep_and_tag_cex :
    Mirror.populate_child_deps parseRangeEx ⟨[]⟩ [("d", "npm:a@1.0.0".data)] [] =
      (⟨[]⟩, [], []) ∧
    claimedExpandDep parseRangeEx idxC4 ⟨[]⟩ "d" "npm:a@1.0.0".data =
      (⟨[("a", ⟨[rPinned]⟩)]⟩, ["a"]) ∧
    Mirror.populate_child_deps parseRangeEx ⟨[]⟩ [("d", "latest".data)] [] =
      (⟨[]⟩, [], []) ∧
    claimedExpandDep parseRangeEx idxC4 ⟨[]⟩ "d" "latest".data =
      (⟨[("d", ⟨[exactRange ⟨1, 0, 0⟩]⟩)]⟩, ["d"]) := by
  decide

namespace Mirror

theorem populate_skip_step (parseRange : List Char → Option SemverRange)
    (st : PackageRangeCache) (dep : String) (range : List Char)
    (rest : List (String × List Char)) (packages : List String)
    (hskip : isSkippedSpec parseRange range = true) :
    populate_child_deps parseRange st ((dep, range) :: rest) packages =
      populate_child_deps parseRange st rest packages := by
  simp only [populate_child_deps]
  by_cases h1 : trimIsEmpty range = true
  · rw [if_pos h1]
  · rw [if_neg h1]
    by_cases h2 : startsWithStr "link:".data range = true
    · rw [if_pos h2]
    · rw [if_neg h2]
      by_cases h3 : startsWithStr "git".data range = true
      · rw [if_pos h3]
      · rw [if_neg h3]
        by_cases h4 : startsWithStr "gist".data range = true
        · rw [if_pos h4]
        · rw [if_neg h4]
          by_cases h5 : startsWithStr "workspace".data range = true
          · rw [if_pos h5]
          · rw [if_neg h5]
            by_cases h6 : startsWithStr "http".data range = true
            · rw [if_pos h6]
            · rw [if_neg h6]
              by_cases h7 : startsWithStr "file".data range = true
              · rw [if_pos h7]
              · rw [if_neg h7]
                by_cases h8 : startsWithStr ".".data range = true
                · rw [if_pos h8]
                · rw [if_neg h8]
                  by_cases h9 : (stripPrefixStr "npm:".data range).isSome = true
                  · rw [if_pos h9]
                  · rw [if_neg h9]
                    by_cases hp : (parseRange range).isNone = true
                    · rw [Option.isNone_iff_eq_none] at hp
                      rw [hp]
                    · exfalso
                      simp only [isSkippedSpec, Bool.or_eq_true] at hskip
                      rcases hskip with
                        ((((((((h | h) | h) | h) | h) | h) | h) | h) | h) | h
                      · exact h1 h
                      · exact h2 h
                      · exact h3 h
                      · exact h4 h
                      · exact h5 h
                      · exact h6 h
                      · exact h7 h
                      · exact h8 h
                      · exact h9 h
                      · exact hp h

end Mirror

/-- Claim C4, amended: in Phase-2 child-dependency expansion, a spec classified
as `SubDep` (`npm:` alias) and a spec classified as `Tag` (any non-Range
leftover) are both skipped entirely — no range-cache insertion, no metadata
queueing, no frontier addition; only specs parsing directly as a Range are
processed.  Over any dependency table consisting solely of such skipped specs,
`populate_child_deps` is the identity on the cache and frontier and queues
nothing. -/
theorem populate_child_deps_skips_nonrange_specs
    (parseRange : List Char → Option SemverRange) (st : Mirror.PackageRangeCache)
    (deps : List (String × List Char)) (packages : List String)
    (h : ∀ e ∈ deps, Mirror.isSkippedSpec parseRange e.2 = true) :
    Mirror.populate_child_deps parseRange st deps packages = (st, [], packages) := by
  induction deps with
  | nil => rfl
  | cons e rest ih =>
    obtain ⟨dep, range⟩ := e
    rw [Mirror.populate_skip_step parseRange st dep range rest packages
      (h _ (List.mem_cons_self _ _))]
    exact ih (fun x hx => h x (List.mem_cons_of_mem _ hx))

/-- Witness: the amended C4 theorem on a table holding one `npm:` alias and one
tag spec. -/
theorem populate_child_deps_skips_nonrange_specs_w :
    Mirror.populate_child_deps parseRangeEx ⟨[]⟩
      [("d", "npm:a@1.0.0".data), ("d2", "latest".data)] [] = (⟨[]⟩, [], []) :=
  populate_child_deps_skips_nonrange_specs parseRangeEx ⟨[]⟩
    [("d", "npm:a@1.0.0".data), ("d2", "latest".data)] [] (by decide)

/-! ## Claim C6 -/

/-- Claim C6 is false on the code: the classifier splits the `npm:` remainder
with `split_once('@')` — the FIRST `@` — not the last.  On
`npm:a@b@1.0.0` the code takes name `a`, version part `b@1.0.0` (which does
not parse) and falls through to `Tag`, while a last-`@` split yields name
`a@b` and version part `1.0.0`, i.e. a `SubDep`. -/
theorem classifier_splits_first_at_cex :
    visit_borrowed_str parseRangeEx "npm:a@b@1.0.0".data =
      DepVersion.Tag "npm:a@b@1.0.0".data ∧
    claimedNpmClassification parseRangeEx "npm:a@b@1.0.0".data =
      DepVersion.SubDep "a@b".data rPinned ∧
    ¬ (DepVersion.Tag "npm:a@b@1.0.0".data =
        DepVersion.SubDep "a@b".data rPinned) := by
  decide

/-- Claim C6, amended: for a spec that does not parse as a Range, is not empty
after trim, has none of the reserved prefixes and starts with `npm:`, the
classifier splits the remainder at the FIRST `@`; when the version part parses
as a Range the result is `SubDep{name, range}`, otherwise (including when no
`@` is present) the string falls through to `Tag`. -/
theorem classifier_npm_first_at_split
    (parseRange : List Char → Option SemverRange) (value rest : List Char)
    (hn : parseRange value = none) (ho : otherSpecCond value = false)
    (hs : stripPrefixStr "npm:".data value = some rest) :
    (∀ name verstr r, splitOnceAt '@' rest = some (name, verstr) →
        parseRange verstr = some r →
        visit_borrowed_str parseRange value = DepVersion.SubDep name r) ∧
    (∀ name verstr, splitOnceAt '@' rest = some (name, verstr) →
        parseRange verstr = none →
        visit_borrowed_str parseRange value = DepVersion.Tag value) ∧
    (splitOnceAt '@' rest = none →
        visit_borrowed_str parseRange value = DepVersion.Tag value) := by
  refine ⟨?_, ?_, ?_⟩
  · intro name verstr r hsplit hp
    simp [visit_borrowed_str, hn, ho, hs, hsplit, hp]
  · intro name verstr hsplit hp
    simp [visit_borrowed_str, hn, ho, hs, hsplit, hp]
  · intro hsplit
    simp [visit_borrowed_str, hn, ho, hs, hsplit]

/-- Witness: the amended C6 theorem on `npm:a@1.0.0`, classified as
`SubDep{a, 1.0.0}`. -/
theorem classifier_npm_first_at_split_w :
    visit_borrowed_str parseRangeEx "npm:a@1.0.0".data =
      DepVersion.SubDep "a".data rPinned :=
  (classifier_npm_first_at_split parseRangeEx "npm:a@1.0.0".data "a@1.0.0".data
    (by decide) (by decide) (by decide)).1 "a".data "1.0.0".data rPinned
    (by decide) (by decide)

/-! ## Claim C7 -/

/-- Claim C7, confirmed: for a key not yet present, the first `insert` returns
true, a second `insert` of the same key returns false and leaves the cache —
position map and byte vector — unchanged, and a subsequent `get` decodes
exactly the blob stored by the first insert. -/
theorem metaCache_append_only (decompress : List Nat → Option (List Nat))
    (deserialize : List Nat → Option PackageIndex) (c : MetaCache) (k : String)
    (v1 v2 : List Nat) (h : alookup c.pos_map k = none) :
    (c.insert k v1).2 = true ∧
    ((c.insert k v1).1.insert k v2).2 = false ∧
    ((c.insert k v1).1.insert k v2).1 = (c.insert k v1).1 ∧
    MetaCache.get decompress deserialize ((c.insert k v1).1.insert k v2).1 k =
      readPackageBlob decompress deserialize v1 := by
  have h1 : (alookup c.pos_map k).isSome = false := by rw [h]; rfl
  have e1 : c.insert k v1 =
      (⟨(k, (c.data.length, v1.length)) :: c.pos_map, c.data ++ v1⟩, true) := by
    unfold MetaCache.insert
    rw [if_neg (h1 ▸ Bool.false_ne_true)]
  have hl : alookup ((k, (c.data.length, v1.length)) :: c.pos_map) k =
      some (c.data.length, v1.length) := by
    simp [alookup]
  have e2 : (MetaCache.insert ⟨(k, (c.data.length, v1.length)) :: c.pos_map,
      c.data ++ v1⟩ k v2) =
      (⟨(k, (c.data.length, v1.length)) :: c.pos_map, c.data ++ v1⟩, false) := by
    unfold MetaCache.insert
    rw [if_pos (by rw [hl]; rfl)]
  have hslice : (((c.data ++ v1).drop c.data.length).take v1.length) = v1 := by
    rw [List.drop_left]
    exact List.take_length v1
  rw [e1]
  refine ⟨rfl, ?_, ?_, ?_⟩
  · rw [e2]
  · rw [e2]
  · rw [e2]
    unfold MetaCache.get
    rw [hl]
    show readPackageBlob decompress deserialize
        (((c.data ++ v1).drop c.data.length).take v1.length) =
      readPackageBlob decompress deserialize v1
    rw [hslice]

/-- Witness: the C7 theorem on the empty cache with key `k`, blobs `[1]` and
`[2]`. -/
theorem metaCache_append_only_w :
    MetaCache.get decompressW deserializeW
        ((cacheEmpty.insert "k" [1]).1.insert "k" [2]).1 "k" =
      readPackageBlob decompressW deserializeW [1] :=
  (metaCache_append_only decompressW deserializeW cacheEmpty "k" [1] [2] rfl).2.2.2

/-! ## Claim C8 -/

theorem fromU64BE_toU64BE (n : Nat) (rest : List Nat) (h : n < 2 ^ 64) :
    fromU64BE? (toU64BE n ++ rest) = some (n, rest) := by
  simp only [toU64BE, List.cons_append, List.nil_append, fromU64BE?,
    Option.some.injEq, Prod.mk.injEq, and_true]
  omega

/-- Claim C8, confirmed for the framing this repository implements: assuming
the external codecs invert on the relevant values — `zstd` decompression
restores the compressed serialization and `bitcode` deserialization restores
the index — decoding (as `MetaCache::get` does: read the big-endian `u64`
uncompressed length, decompress the remaining bytes to exactly that length,
deserialize) the bytes written by `write_package_idx`'s framing yields the
original `PackageIndex`. -/
theorem idx_codec_round_trip (serialize : PackageIndex → List Nat)
    (compress : List Nat → List Nat) (decompress : List Nat → Option (List Nat))
    (deserialize : List Nat → Option PackageIndex) (idx : PackageIndex)
    (hlen : (serialize idx).length < 2 ^ 64)
    (hzstd : decompress (compress (serialize idx)) = some (serialize idx))
    (hbit : deserialize (serialize idx) = some idx) :
    readPackageBlob decompress deserialize (encodePackageIdx serialize compress idx) =
      some idx := by
  unfold encodePackageIdx readPackageBlob
  rw [fromU64BE_toU64BE _ _ hlen]
  simp [hzstd, hbit]

/-- Witness: the C8 round trip at the empty index with concrete one-byte
serialization and identity compression. -/
theorem idx_codec_round_trip_w :
    readPackageBlob decompressW deserializeW
      (encodePackageIdx serializeW compressW idxEmpty) = some idxEmpty :=
  idx_codec_round_trip serializeW compressW decompressW deserializeW idxEmpty
    (by norm_num [serializeW]) rfl rfl

/-! ## Claim C9 -/

theorem stripPrefixStr_append (p s : List Char) : stripPrefixStr p (p ++ s) = some s := by
  induction p with
  | nil => rfl
  | cons c rest ih => simp [stripPrefixStr, ih]

theorem startsWithStr_append (p s : List Char) : startsWithStr p (p ++ s) = true := by
  simp [startsWithStr, stripPrefixStr_append]

theorem startsWithStr_slash_false {pkg : List Char} (hne : pkg ≠ [])
    (hsl : pkg.head? ≠ some '/') (xs : List Char) :
    startsWithStr pkg ('/' :: xs) = false := by
  cases pkg with
  | nil => exact absurd rfl hne
  | cons c cs =>
    have hc : ¬ c = '/' := fun h => hsl (by simp [h])
    simp [startsWithStr, stripPrefixStr, hc]

theorem findSub_canonical (pkg tail : List Char) (hne : pkg ≠ [])
    (hsl : pkg.head? ≠ some '/') :
    findSub ('/' :: (pkg ++ tail)) pkg = some 1 := by
  have h0 := startsWithStr_slash_false hne hsl (pkg ++ tail)
  have h1 : findSub (pkg ++ tail) pkg = some 0 := by
    cases pkg with
    | nil => exact absurd rfl hne
    | cons c cs =>
      have hsw : startsWithStr (c :: cs) ((c :: cs) ++ tail) = true :=
        startsWithStr_append (c :: cs) tail
      simp only [List.cons_append] at hsw
      simp [findSub, hsw]
  simp [findSub, h0, h1]

/-- Claim C9 is false as stated for arbitrary tarball URLs: on
the URL whose path is `x`, then `pkg`, then the sentinel, then `p.tgz` under
registry `https://r`, `strip_path` finds the FIRST occurrence of the package
name in the remainder, produces `Short(p.tgz)`, and the rebuilt URL drops the
`x` path segment, differing from the original. -/
theorem strip_path_parity_cex :
    strip_path "https://r/x/pkg/-/p.tgz".data "pkg".data "https://r".data =
      TarballUrl.Short "p.tgz".data ∧
    tarball_url "https://r".data "pkg".data
        (strip_path "https://r/x/pkg/-/p.tgz".data "pkg".data "https://r".data) =
      "https://r/pkg/-/p.tgz".data ∧
    ¬ ("https://r/pkg/-/p.tgz".data = "https://r/x/pkg/-/p.tgz".data) := by
  decide

/-- Claim C9, amended: the parity holds for the canonical short form — URLs of
shape registry, slash, package, the slash-dash-slash sentinel, basename, with
a nonempty package name not beginning with a slash and a registry not
beginning with a slash — and trivially for every URL that `strip_path` keeps
as `Full`; it fails in general when the package name occurs earlier in the
URL's path remainder (the spec's own §9 caveat). -/
theorem strip_path_parity (reg pkg base : List Char) (hpkg : pkg ≠ [])
    (hpkg2 : pkg.head? ≠ some '/') (hreg : reg.head? ≠ some '/') :
    (strip_path (reg ++ '/' :: (pkg ++ '/' :: '-' :: '/' :: base)) pkg reg =
        TarballUrl.Short base ∧
      tarball_url reg pkg
          (strip_path (reg ++ '/' :: (pkg ++ '/' :: '-' :: '/' :: base)) pkg reg) =
        reg ++ '/' :: (pkg ++ '/' :: '-' :: '/' :: base)) ∧
    (∀ url u2, strip_path url pkg reg = TarballUrl.Full u2 →
      tarball_url reg pkg (TarballUrl.Full u2) = url) := by
  have hstrip : stripPrefixStr reg (reg ++ '/' :: (pkg ++ '/' :: '-' :: '/' :: base)) =
      some ('/' :: (pkg ++ '/' :: '-' :: '/' :: base)) :=
    stripPrefixStr_append reg _
  have hfind := findSub_canonical pkg ('/' :: '-' :: '/' :: base) hpkg hpkg2
  have hdrop : ('/' :: (pkg ++ '/' :: '-' :: '/' :: base)).drop (pkg.length + 1) =
      '/' :: '-' :: '/' :: base := by
    rw [List.drop_succ_cons]
    exact List.drop_left pkg _
  have hsentinel : stripPrefixStr "/-/".data ('/' :: '-' :: '/' :: base) = some base := by
    rfl
  have hshort : strip_path (reg ++ '/' :: (pkg ++ '/' :: '-' :: '/' :: base)) pkg reg =
      TarballUrl.Short base := by
    unfold strip_path
    simp only [hstrip, hfind, hdrop, hsentinel]
  have hub : stripPrefixStr "/".data reg = none := by
    cases reg with
    | nil => rfl
    | cons c cs =>
      have hc : ¬ ('/' = c) := fun h => hreg (by simp [← h])
      show stripPrefixStr ['/'] (c :: cs) = none
      simp [stripPrefixStr, hc]
  refine ⟨⟨hshort, ?_⟩, ?_⟩
  · rw [hshort]
    unfold tarball_url
    rw [hub]
    show (reg ++ ['/'] ++ pkg ++ ['/', '-', '/'] ++ base) =
      reg ++ '/' :: (pkg ++ '/' :: '-' :: '/' :: base)
    simp [List.append_assoc]
  · intro url u2 h
    have hu : u2 = url := by
      unfold strip_path at h
      split at h
      · injection h with h2
        exact h2.symm
      · split at h
        · injection h with h2
          exact h2.symm
        · split at h
          · injection h with h2
            exact h2.symm
          · exact TarballUrl.noConfusion h
    rw [hu]
    rfl

/-- Witness: the amended C9 theorem on the canonical URL built from registry
`https://r`, package `pkg` and basename `p.tgz`. -/
theorem strip_path_parity_w :
    tarball_url "https://r".data "pkg".data
        (strip_path ("https://r".data ++ '/' ::
            ("pkg".data ++ '/' :: '-' :: '/' :: "p.tgz".data))
          "pkg".data "https://r".data) =
      "https://r".data ++ '/' :: ("pkg".data ++ '/' :: '-' :: '/' :: "p.tgz".data) :=
  (strip_path_parity "https://r".data "pkg".data "p.tgz".data (by decide)
    (by decide) (by decide)).1.2

/-! ## Claim C3 -/

theorem download_tarball_outcomes (hashFn : List Nat → List Nat) (fs : Fs)
    (url : List Char) (target_path : List String) (c : List Nat)
    (resp : HttpOutcome) :
    (fsExists fs target_path = true ∧
      download_tarball hashFn fs url target_path (some c) resp = (fs, .ok false)) ∨
    (fsExists fs target_path = false ∧ resp = .err ∧
      download_tarball hashFn fs url target_path (some c) resp =
        (fs, .error .Reqwest)) ∨
    (∃ status et chunks, fsExists fs target_path = false ∧
      resp = .ok status et chunks ∧ statusIsSuccess status = false ∧
      download_tarball hashFn fs url target_path (some c) resp =
        (fs, .error (.Download url status))) ∨
    (∃ status et chunks, fsExists fs target_path = false ∧
      resp = .ok status et chunks ∧ statusIsSuccess status = true ∧
      c = hashFn chunks.flatten ∧
      download_tarball hashFn fs url target_path (some c) resp =
        (fsWrite fs target_path (.file chunks.flatten), .ok true)) ∨
    (∃ status et chunks, fsExists fs target_path = false ∧
      resp = .ok status et chunks ∧ statusIsSuccess status = true ∧
      ¬ c = hashFn chunks.flatten ∧
      download_tarball hashFn fs url target_path (some c) resp =
        (fsRemove (fsWrite fs target_path (.file chunks.flatten)) target_path,
         .error (.Checksum url c (hashFn chunks.flatten)))) := by
  by_cases hex : fsExists fs target_path = true
  · exact Or.inl ⟨hex, by unfold download_tarball; rw [if_pos hex]⟩
  · have hex2 : fsExists fs target_path = false := Bool.not_eq_true _ ▸ hex
    cases resp with
    | err =>
      refine Or.inr (Or.inl ⟨hex2, rfl, ?_⟩)
      simp [download_tarball, hex2]
    | ok status et chunks =>
      by_cases hst : statusIsSuccess status = true
      · by_cases hc : c = hashFn chunks.flatten
        · refine Or.inr (Or.inr (Or.inr (Or.inl
            ⟨status, et, chunks, hex2, rfl, hst, hc, ?_⟩)))
          simp [download_tarball, hex2, hst, hc]
        · refine Or.inr (Or.inr (Or.inr (Or.inr
            ⟨status, et, chunks, hex2, rfl, hst, hc, ?_⟩)))
          simp [download_tarball, hex2, hst, hc]
      · have hst2 : statusIsSuccess status = false := Bool.not_eq_true _ ▸ hst
        refine Or.inr (Or.inr (Or.inl ⟨status, et, chunks, hex2, rfl, hst2, ?_⟩))
        simp [download_tarball, hex2, hst2]

/-- Claim C3, confirmed: for a Tarball request with `checksum = some c`, a
completed download (`Ok(true)`) leaves on disk at the target path a file whose
streamed digest equals `c`; and a `Checksum` error is produced exactly when
the streamed digest differs, in which case the partially written file has been
deleted (the target path is absent) and the error carries `c` as expected
digest and the differing computed digest. -/
theorem tarball_checksum_integrity (hashFn : List Nat → List Nat) (fs : Fs)
    (url : List Char) (target_path : List String) (c : List Nat)
    (resp : HttpOutcome) :
    ((download_tarball hashFn fs url target_path (some c) resp).2 = .ok true →
      ∃ contents,
        (download_tarball hashFn fs url target_path (some c) resp).1 target_path =
          some (.file contents) ∧ hashFn contents = c) ∧
    (∀ u e g,
      (download_tarball hashFn fs url target_path (some c) resp).2 =
        .error (.Checksum u e g) →
      (download_tarball hashFn fs url target_path (some c) resp).1 target_path =
        none ∧ u = url ∧ e = c ∧ g ≠ c) ∧
    (fsExists fs target_path = false → ∀ status et chunks,
      resp = .ok status et chunks → statusIsSuccess status = true →
      hashFn chunks.flatten ≠ c →
      (download_tarball hashFn fs url target_path (some c) resp).2 =
          .error (.Checksum url c (hashFn chunks.flatten)) ∧
        (download_tarball hashFn fs url target_path (some c) resp).1 target_path =
          none) := by
  rcases download_tarball_outcomes hashFn fs url target_path c resp with
    ⟨hex, he⟩ | ⟨hex, hresp, he⟩ | ⟨status, et, chunks, hex, hresp, hst, he⟩ |
    ⟨status, et, chunks, hex, hresp, hst, hc, he⟩ |
    ⟨status, et, chunks, hex, hresp, hst, hc, he⟩
  · refine ⟨?_, ?_, ?_⟩
    · intro h
      rw [he] at h
      simp at h
    · intro u e g h
      rw [he] at h
      simp at h
    · intro hex2
      rw [hex] at hex2
      cases hex2
  · refine ⟨?_, ?_, ?_⟩
    · intro h
      rw [he] at h
      simp at h
    · intro u e g h
      rw [he] at h
      simp at h
    · intro hex2 status et chunks hresp2
      rw [hresp] at hresp2
      cases hresp2
  · refine ⟨?_, ?_, ?_⟩
    · intro h
      rw [he] at h
      simp at h
    · intro u e g h
      rw [he] at h
      simp at h
    · intro hex2 status2 et2 chunks2 hresp2 hst2
      rw [hresp] at hresp2
      injection hresp2 with e1 e2 e3
      rw [← e1] at hst2
      rw [hst] at hst2
      cases hst2
  · refine ⟨?_, ?_, ?_⟩
    · intro h
      rw [he]
      refine ⟨chunks.flatten, ?_, hc.symm⟩
      simp [fsWrite]
    · intro u e g h
      rw [he] at h
      simp at h
    · intro hex2 status2 et2 chunks2 hresp2 hst2 hdig
      rw [hresp] at hresp2
      injection hresp2 with e1 e2 e3
      rw [← e3] at hdig
      exact absurd hc.symm hdig
  · refine ⟨?_, ?_, ?_⟩
    · intro h
      rw [he] at h
      simp at h
    · intro u e g h
      rw [he] at h
      simp only [Prod.snd] at h
      injection h with h2
      injection h2 with hu hee hg
      refine ⟨?_, hu.symm, hee.symm, ?_⟩
      · rw [he]
        simp [fsRemove]
      · rw [← hg]
        exact fun hcon => hc hcon.symm
    · intro hex2 status2 et2 chunks2 hresp2 hst2 hdig
      rw [hresp] at hresp2
      injection hresp2 with e1 e2 e3
      subst e1
      subst e3
      constructor
      · rw [he]
      · rw [he]
        simp [fsRemove]

/-- Witness: the C3 theorem at a successful concrete download whose identity
digest matches the expected checksum `[7]`. -/
theorem tarball_checksum_integrity_w :
    ∃ contents,
      (download_tarball idDigest fsEmpty "u".data ["out", "p.tgz"] (some [7])
          (.ok 200 none [[7]])).1 ["out", "p.tgz"] = some (.file contents) ∧
        idDigest contents = [7] :=
  (tarball_checksum_integrity idDigest fsEmpty "u".data ["out", "p.tgz"] [7]
    (.ok 200 none [[7]])).1 rfl

/-! ## Claim C5 -/

/-- Claim C5 is false on the code: `needs_downloading` returns `Ok(false)` when
the HEAD request fails (transport error or non-2xx), so the worker takes the
CACHED branch — here reporting skipped and writing nothing — even though a
successful GET response with a body was available; the claim demanded a GET
download in that situation, and skipping is not limited to the
successful-HEAD-with-existing-ETag-file case. -/
theorem metadata_head_failure_skips_get_cex :
    needs_downloading fsIdxOnly HttpOutcome.err targetC5 = false ∧
    (download_metadata fsIdxOnly cacheEmpty HttpOutcome.err
        (.ok 200 none [[1, 2]]) "x" "u".data targetC5 parseIdxC5).2.2 =
      Except.ok false ∧
    (download_metadata fsIdxOnly cacheEmpty HttpOutcome.err
        (.ok 200 none [[1, 2]]) "x" "u".data targetC5 parseIdxC5).1 targetC5 =
      none := by
  exact ⟨rfl, rfl, rfl⟩

/-- Claim C5, amended: when the initial HEAD fails non-fatally (transport error
or non-2xx), the worker does NOT proceed to GET — `needs_downloading` reports
false and `download_metadata` takes the cached branch, independent of the GET
outcome; and for a successful HEAD, the download is skipped exactly when an
ETag is present whose sibling file already exists. -/
theorem metadata_cached_branch_characterization (fs : Fs) (cache : MetaCache)
    (get : HttpOutcome) (package : String) (url : List Char)
    (target_path : List String)
    (parseIdx : List Nat → Option (String × List Nat)) :
    (needs_downloading fs HttpOutcome.err target_path = false) ∧
    (∀ status eh chunks, statusIsSuccess status = false →
      needs_downloading fs (.ok status eh chunks) target_path = false) ∧
    (∀ status eh chunks, statusIsSuccess status = true →
      (needs_downloading fs (.ok status eh chunks) target_path = false ↔
        ∃ etag, get_etag eh = some etag ∧
          fsExists fs (target_path.dropLast ++ [String.mk etag]) = true)) ∧
    (∀ head, needs_downloading fs head target_path = false →
      download_metadata fs cache head get package url target_path parseIdx =
        cachedBranch fs cache package target_path) := by
  refine ⟨rfl, ?_, ?_, ?_⟩
  · intro status eh chunks hst
    show (if statusIsSuccess status = true then
        match get_etag eh with
        | none => true
        | some etag => !fsExists fs (target_path.dropLast ++ [String.mk etag])
      else false) = false
    rw [if_neg (hst ▸ Bool.false_ne_true)]
  · intro status eh chunks hst
    show (if statusIsSuccess status = true then
        match get_etag eh with
        | none => true
        | some etag => !fsExists fs (target_path.dropLast ++ [String.mk etag])
      else false) = false ↔ _
    rw [if_pos hst]
    cases hge : get_etag eh with
    | none =>
      simp only [hge]
      constructor
      · intro h
        cases h
      · rintro ⟨etag, he, hex⟩
        cases he
    | some etag =>
      simp only [hge]
      constructor
      · intro h
        refine ⟨etag, rfl, ?_⟩
        have := congrArg (fun b => !b) h
        simpa using this
      · rintro ⟨etag2, he, hex⟩
        injection he with he2
        rw [← he2] at hex
        rw [hex]
        rfl
  · intro head h
    unfold download_metadata
    rw [if_neg (h ▸ Bool.false_ne_true)]

/-- Witness: the amended C5 theorem's dispatch conjunct applied to a failed
HEAD with a cached index on disk. -/
theorem metadata_cached_branch_characterization_w :
    download_metadata fsIdxOnly cacheEmpty HttpOutcome.err (.ok 200 none [[1, 2]])
        "x" "u".data targetC5 parseIdxC5 =
      cachedBranch fsIdxOnly cacheEmpty "x" targetC5 :=
  (metadata_cached_branch_characterization fsIdxOnly cacheEmpty
    (.ok 200 none [[1, 2]]) "x" "u".data targetC5 parseIdxC5).2.2.2
    HttpOutcome.err rfl

/-! ## Claim C10 -/

theorem track_one_counter (c : ProgressPart) (res : Except ErrorKind Bool) :
    (c.track res).total = c.total ∧
    ((c.track res) = { c with success := c.success + 1 } ∨
     (c.track res) = { c with skipped := c.skipped + 1 } ∨
     (c.track res) = { c with failed := c.failed + 1 }) := by
  cases res with
  | ok b => cases b <;> simp [ProgressPart.track]
  | error e =>
    cases e with
    | Download u s =>
      by_cases hs : s = 404 <;> simp [ProgressPart.track, hs]
    | Checksum u e g => simp [ProgressPart.track]
    | Io => simp [ProgressPart.track]
    | Reqwest => simp [ProgressPart.track]
    | Serde => simp [ProgressPart.track]
    | AsyncChannelSend => simp [ProgressPart.track]

theorem runEvents_total_eq (tr : List DlEvent) (c : ProgressPart) :
    (runEvents c tr).total = c.total + queueCount tr := by
  induction tr generalizing c with
  | nil => simp [runEvents, queueCount]
  | cons ev rest ih =>
    cases ev with
    | queue =>
      simp only [runEvents, queueCount, ih]
      omega
    | process res =>
      simp only [runEvents, queueCount, ih, (track_one_counter c res).1]

theorem runEvents_processed_eq (tr : List DlEvent) (c : ProgressPart) :
    (runEvents c tr).success + (runEvents c tr).skipped + (runEvents c tr).failed =
      c.success + c.skipped + c.failed + processCount tr := by
  induction tr generalizing c with
  | nil => simp [runEvents, processCount]
  | cons ev rest ih =>
    cases ev with
    | queue =>
      simp only [runEvents, processCount, ih]
    | process res =>
      simp only [runEvents, processCount, ih]
      rcases (track_one_counter c res).2 with h | h | h <;> rw [h] <;> simp <;> omega

theorem balanced_processed_le (tr : List DlEvent) (k : Nat)
    (h : balanced k tr = true) : processCount tr ≤ k + queueCount tr := by
  induction tr generalizing k with
  | nil => simp [processCount]
  | cons ev rest ih =>
    cases ev with
    | queue =>
      have := ih (k + 1) h
      simp only [processCount, queueCount] at *
      omega
    | process res =>
      cases k with
      | zero => simp [balanced] at h
      | succ k2 =>
        have := ih k2 h
        simp only [processCount, queueCount] at *
        omega

/-- Claim C10, confirmed: each processed request increments exactly one of
success, skipped, failed by exactly 1 (and leaves total alone); along any trace
where requests are processed only after being queued (each `queue` bumps total
first), success + skipped + failed equals the processed count and never exceeds
total, `remaining` computes the exact difference without underflow, and it
reaches 0 once every queued request has been processed. -/
theorem progress_counters_balanced (tr : List DlEvent)
    (h : balanced 0 tr = true) :
    ((runEvents ⟨0, 0, 0, 0⟩ tr).success + (runEvents ⟨0, 0, 0, 0⟩ tr).skipped +
        (runEvents ⟨0, 0, 0, 0⟩ tr).failed = processCount tr) ∧
    (runEvents ⟨0, 0, 0, 0⟩ tr).total = queueCount tr ∧
    processCount tr ≤ queueCount tr ∧
    (runEvents ⟨0, 0, 0, 0⟩ tr).remaining = queueCount tr - processCount tr ∧
    (processCount tr = queueCount tr →
      (runEvents ⟨0, 0, 0, 0⟩ tr).remaining = 0) ∧
    (∀ c res, (ProgressPart.track c res).total = c.total ∧
      ((ProgressPart.track c res) = { c with success := c.success + 1 } ∨
       (ProgressPart.track c res) = { c with skipped := c.skipped + 1 } ∨
       (ProgressPart.track c res) = { c with failed := c.failed + 1 })) := by
  have e1 := runEvents_processed_eq tr ⟨0, 0, 0, 0⟩
  have e2 := runEvents_total_eq tr ⟨0, 0, 0, 0⟩
  have e3 := balanced_processed_le tr 0 h
  simp only at e1 e2
  refine ⟨by omega, by omega, by omega, ?_, ?_, track_one_counter⟩
  · unfold ProgressPart.remaining
    omega
  · intro hall
    unfold ProgressPart.remaining
    omega

/-- Witness: the C10 theorem on the concrete trace queue, success, queue,
failed download; both queued requests are processed, so remaining is 0. -/
theorem progress_counters_balanced_w :
    (runEvents ⟨0, 0, 0, 0⟩ traceEx).remaining = 0 :=
  (progress_counters_balanced traceEx (by decide)).2.2.2.2.1 (by decide)
